import Mathlib

/-!
Shallow embedding of the WatchDog-V1 synchronization engine (src/main.py).

Paths are modelled as lists of components (a normalized absolute or
root-relative path, as os.path.abspath would produce on posix).  File
contents are abstract values (a Nat identifier); a file carries its content
and its last-modified timestamp.  A directory tree (and likewise the live
filesystem seen by the event handler) is a list of existing directory paths
together with an association list from paths to files, in os.walk order.

os.path.relpath never raises on posix input; it is modelled by relpath
below, including the '..'-filling behaviour for paths that are not
descendants of the start directory and the '.' result for equal paths.
shutil.copy2 copies content and preserves the modification time (permission
bits are not modelled; no claim mentions them).
-/

abbrev FsPath := List String

structure File where
  content : Nat
  mtime : Nat
deriving DecidableEq

abbrev FileMap := List (FsPath × File)

/-- First-occurrence lookup in an association list of files. -/
def lookupFile : FileMap → FsPath → Option File
  | [], _ => none
  | e :: rest, p => if e.1 = p then some e.2 else lookupFile rest p

/-- Overwrite the entry at a path, or append a new entry (shutil.copy2 onto
a destination path: overwrite if present, create otherwise). -/
def setFile : FileMap → FsPath → File → FileMap
  | [], p, f => [(p, f)]
  | e :: rest, p, f => if e.1 = p then (p, f) :: rest else e :: setFile rest p f

/-- Boolean path-prefix test: pfx a b is true when a is a componentwise
ancestor-or-self of b. -/
def pfx : FsPath → FsPath → Bool
  | [], _ => true
  | _ :: _, [] => false
  | a :: as, b :: bs => if a = b then pfx as bs else false

/-- Length of the longest common component-prefix of two paths, as used by
os.path.relpath via os.path.commonprefix. -/
def commonLen : FsPath → FsPath → Nat
  | a :: as, b :: bs => if a = b then commonLen as bs + 1 else 0
  | _, _ => 0

/-- os.path.relpath(p, start) on normalized absolute posix paths: fill with
'..' up from the common prefix, then descend; the empty result is '.'.
It is a total function: it never raises for a path outside start. -/
def relpath (p start : FsPath) : FsPath :=
  let i := commonLen start p
  let rel := List.replicate (start.length - i) ".." ++ p.drop i
  if rel = [] then ["."] else rel

/-- FsPath mapping of the event handler: os.path.join(toRoot,
os.path.relpath(p, fromRoot)).  os.path.join does not normalize '..'
components, so this is plain list append. -/
def mapped (fromRoot toRoot p : FsPath) : FsPath :=
  toRoot ++ relpath p fromRoot

/-- All component-prefixes of a path, shortest first (the chain of
directories os.makedirs creates). -/
def initsOf : FsPath → List FsPath
  | [] => [[]]
  | a :: as => [] :: (initsOf as).map (a :: ·)

/-- Add a directory to the list of existing directories if absent. -/
def insertDir (ds : List FsPath) (q : FsPath) : List FsPath :=
  if q ∈ ds then ds else ds ++ [q]

/-- os.makedirs: create the directory and every missing ancestor. -/
def makedirs (ds : List FsPath) (p : FsPath) : List FsPath :=
  (initsOf p).foldl insertDir ds

structure FsTree where
  dirs : List FsPath
  files : FileMap
deriving DecidableEq

/-- The copy condition of the reconciliation scanner (main.py line 108 /
126): copy iff the destination file does not exist or the source
modification time is strictly greater. -/
def willCopy (dest : FileMap) (p : FsPath) (f : File) : Bool :=
  match lookupFile dest p with
  | none => true
  | some g => if g.mtime < f.mtime then true else false

/-- One file of a reconciliation pass: shutil.copy2 (content and mtime)
when the copy condition holds, otherwise leave the destination alone. -/
def copyStep (m : FileMap) (e : FsPath × File) : FileMap :=
  if willCopy m e.1 e.2 then setFile m e.1 e.2 else m

/-- One directory of a reconciliation pass (main.py lines 101-104):
if not os.path.exists(dest_dir): os.makedirs(dest_dir). -/
def mkdirStep (ds : List FsPath) (p : FsPath) : List FsPath :=
  if p ∈ ds then ds else makedirs ds p

/-- One direction of sync_folders_with_progress: walk every directory of
src creating the missing counterpart under dest, and run the copy condition
on every file of src.  The real loop interleaves the two actions, but they
touch disjoint state (the directory list and the file map), so the result
is the pair of folds. -/
def syncPass (src dest : FsTree) : FsTree :=
  { dirs := src.dirs.foldl mkdirStep dest.dirs
    files := src.files.foldl copyStep dest.files }

/-- sync_folders_with_progress(src, dest), main.py lines 93-128: a src→dest
pass followed by a dest→src pass, where the second pass re-walks the
destination as updated by the first.  Returns (new src, new dest). -/
def sync_folders_with_progress (src dest : FsTree) : FsTree × FsTree :=
  let dest1 := syncPass src dest
  let src1 := syncPass dest1 src
  (src1, dest1)

/-- The startup sequence of main.py lines 147-148:
sync_folders_with_progress(A, B) then sync_folders_with_progress(B, A).
Returns (final A, final B). -/
def reconcileBoth (a b : FsTree) : FsTree × FsTree :=
  let r1 := sync_folders_with_progress a b
  let r2 := sync_folders_with_progress r1.2 r1.1
  (r2.2, r2.1)

/-- A reconciliation pass instrumented with the number of copies it
performs (the pbar counts every file; we count actual shutil.copy2 calls). -/
def syncPassCount (src : List (FsPath × File)) (dest : FileMap) : FileMap × Nat :=
  src.foldl
    (fun acc e => if willCopy acc.1 e.1 e.2 then (setFile acc.1 e.1 e.2, acc.2 + 1) else acc)
    (dest, 0)

/-- Number of copies performed by one sync_folders_with_progress call. -/
def syncCopyCount (src dest : FsTree) : Nat :=
  let p1 := syncPassCount src.files dest.files
  let p2 := syncPassCount p1.1 src.files
  p1.2 + p2.2

inductive SyncErr
  | ioError (p : FsPath)
deriving DecidableEq

/-- A reconciliation pass in which shutil.copy2 raises IOError for the
paths in bad.  The source has no try/except around the copy (main.py lines
105-110), so the first failure aborts the fold: earlier copies persist and
the remaining files are not visited. -/
def syncPassE (bad : List FsPath) : List (FsPath × File) → FileMap → FileMap × Option SyncErr
  | [], m => (m, none)
  | e :: rest, m =>
    if willCopy m e.1 e.2 then
      if e.1 ∈ bad then (m, some (SyncErr.ioError e.1))
      else syncPassE bad rest (setFile m e.1 e.2)
    else syncPassE bad rest m

inductive Event
  | created (srcPath : FsPath)
  | modified (srcPath : FsPath)
  | deleted (srcPath : FsPath)
  | moved (srcPath destPath : FsPath)
deriving DecidableEq

/-- The event_type string of a watchdog FileSystemEvent. -/
def eventKind : Event → String
  | .created _ => "created"
  | .modified _ => "modified"
  | .deleted _ => "deleted"
  | .moved _ _ => "moved"

def eventSrc : Event → FsPath
  | .created p => p
  | .modified p => p
  | .deleted p => p
  | .moved p _ => p

def eventPaths : Event → List FsPath
  | .created p => [p]
  | .modified p => [p]
  | .deleted p => [p]
  | .moved p q => [p, q]

/-- Exceptions the handler body can raise: ioError stands for a
FileNotFoundError (shutil.copy2 on a missing source, or os.rename on a
missing destination parent directory), preconditionError for the
FileNotFoundError of os.rename inside shutil.move on a missing source (the
spec's PreconditionError), destExists for the shutil.Error raised by
shutil.move when moving into a directory whose target entry already
exists. -/
inductive HandlerError
  | ioError (p : FsPath)
  | preconditionError (p : FsPath)
  | destExists (p : FsPath)
deriving DecidableEq

/-- os.path.exists: the path is an existing directory or an existing file. -/
def fsExists (fs : FsTree) (p : FsPath) : Bool :=
  if p ∈ fs.dirs then true else (lookupFile fs.files p).isSome

/-- shutil.copy2(src, dst): read the source file (FileNotFoundError if it
is gone) and overwrite dst with its content and modification time. -/
def copy2 (fs : FsTree) (src dst : FsPath) : Except HandlerError FsTree :=
  match lookupFile fs.files src with
  | none => Except.error (HandlerError.ioError src)
  | some f => Except.ok { fs with files := setFile fs.files dst f }

/-- os.makedirs(p, exist_ok=True) on the live filesystem. -/
def makedirsFs (fs : FsTree) (p : FsPath) : FsTree :=
  { fs with dirs := makedirs fs.dirs p }

/-- shutil.rmtree: remove the directory and everything below it. -/
def rmtree (fs : FsTree) (p : FsPath) : FsTree :=
  { dirs := fs.dirs.filter (fun d => !(pfx p d))
    files := fs.files.filter (fun e => !(pfx p e.1)) }

/-- os.remove of a single file. -/
def removeFile (fs : FsTree) (p : FsPath) : FsTree :=
  { fs with files := fs.files.filter (fun e => !(decide (e.1 = p))) }

/-- Rename the leading old components of a path to new; other paths are
untouched. -/
def replacePfx (old new p : FsPath) : FsPath :=
  if pfx old p then new ++ p.drop old.length else p

/-- The raw rename of a file or a whole directory subtree: every path with
the old prefix gets the new prefix.  Used only once the preconditions of
os.rename below have been checked. -/
def movePath (fs : FsTree) (old new : FsPath) : FsTree :=
  { dirs := fs.dirs.map (replacePfx old new)
    files := fs.files.map (fun e => (replacePfx old new e.1, e.2)) }

/-- os.path.basename of a component path, as a (zero- or one-component)
path. -/
def baseName (p : FsPath) : FsPath :=
  p.drop (p.length - 1)

/-- os.rename(src, dst) on one filesystem: raises FileNotFoundError when
the source does not exist (modelled as preconditionError, the spec's name
for this failure) or when the destination's parent directory is missing;
otherwise it renames, atomically replacing a destination file if one is
there. -/
def osRename (fs : FsTree) (src dst : FsPath) : Except HandlerError FsTree :=
  if fsExists fs src then
    if dst.dropLast ∈ fs.dirs then Except.ok (movePath (removeFile fs dst) src dst)
    else Except.error (HandlerError.ioError dst)
  else Except.error (HandlerError.preconditionError src)

/-- shutil.move(src, dst): when dst is an existing directory the real
target is dst joined with basename(src), and shutil.Error is raised if
that target already exists; in every other respect the move is os.rename
(same filesystem, no copy fallback modelled). -/
def shutil_move (fs : FsTree) (src dst : FsPath) : Except HandlerError FsTree :=
  if dst ∈ fs.dirs then
    if fsExists fs (dst ++ baseName src) then
      Except.error (HandlerError.destExists (dst ++ baseName src))
    else osRename fs src (dst ++ baseName src)
  else osRename fs src dst

/-- The body of MyEventHandler.on_any_event (main.py lines 52-87), before
the enclosing try/except: branch on the event type exactly as the source
does, against watch root w and mirror root m. -/
def on_any_event_body (w m : FsPath) (fs : FsTree) (e : Event) : Except HandlerError FsTree :=
  match e with
  | .created p =>
    if p ∈ fs.dirs then Except.ok (makedirsFs fs (mapped w m p))
    else copy2 fs p (mapped w m p)
  | .modified p =>
    if p ∈ fs.dirs then Except.ok fs
    else copy2 fs p (mapped w m p)
  | .deleted p =>
    if mapped w m p ∈ fs.dirs then Except.ok (rmtree fs (mapped w m p))
    else if (lookupFile fs.files (mapped w m p)).isSome then
      Except.ok (removeFile fs (mapped w m p))
    else Except.ok fs
  | .moved p q =>
    shutil_move fs (mapped w m p) (mapped w m q)

def pathStr (p : FsPath) : String :=
  String.intercalate ("/") p

def errText : HandlerError → String
  | .ioError p => "No such file or directory: " ++ pathStr p
  | .preconditionError p => "No such file or directory: " ++ pathStr p
  | .destExists p => "Destination path already exists: " ++ pathStr p

/-- The message printed by the except branch of on_any_event (main.py line
90): the event's kind and source path, then the exception text. -/
def errorMessage (e : Event) (err : HandlerError) : String :=
  "Error handling event " ++ eventKind e ++ " for " ++ pathStr (eventSrc e) ++ ": " ++ errText err

/-- MyEventHandler.on_any_event: run the body inside the try/except.  Any
exception is caught and turned into a logged message; the function always
returns normally.  On failure the filesystem is the one the failing
operation left behind (each modelled operation is atomic, so it is the
pre-event state). -/
def on_any_event (w m : FsPath) (fs : FsTree) (e : Event) : FsTree × Option String :=
  match on_any_event_body w m fs e with
  | Except.ok fs1 => (fs1, none)
  | Except.error err => (fs, some (errorMessage e err))

/-- Feed a stream of events to the handler one at a time, collecting the
error messages printed along the way. -/
def processEvents (w m : FsPath) (fs : FsTree) : List Event → FsTree × List String
  | [] => (fs, [])
  | e :: rest =>
    let r := on_any_event w m fs e
    let r2 := processEvents w m r.1 rest
    match r.2 with
    | none => r2
    | some s => (r2.1, s :: r2.2)


/-- The effect of one copy condition on the destination value at the file's
own path: a missing destination receives the source file, an older
destination is overwritten, otherwise it is kept. -/
def mergeStep (f : File) : Option File → Option File
  | none => some f
  | some g => if g.mtime < f.mtime then some f else some g

/-- Pointwise result of one reconciliation pass at a single path, as a
function of the source value and the destination value there. -/
def mergeAt : Option File → Option File → Option File
  | none, b => b
  | some f, b => mergeStep f b

/-! ### Lemmas about path prefixes -/

theorem pfx_iff_exists {a b : FsPath} : pfx a b = true ↔ ∃ t, b = a ++ t := by
  induction a generalizing b with
  | nil => simp [pfx]
  | cons x as ih =>
    cases b with
    | nil =>
      constructor
      · intro h; simp [pfx] at h
      · rintro ⟨t, ht⟩; exact absurd ht (by simp)
    | cons y bs =>
      constructor
      · intro h
        simp only [pfx] at h
        by_cases hxy : x = y
        · rw [if_pos hxy] at h
          obtain ⟨t, rfl⟩ := ih.mp h
          exact ⟨t, by simp [hxy]⟩
        · rw [if_neg hxy] at h
          exact absurd h (by simp)
      · rintro ⟨t, ht⟩
        simp only [List.cons_append, List.cons.injEq] at ht
        obtain ⟨rfl, rfl⟩ := ht
        simp only [pfx, if_pos rfl]
        exact ih.mpr ⟨t, rfl⟩

theorem pfx_append (a t : FsPath) : pfx a (a ++ t) = true :=
  pfx_iff_exists.mpr ⟨t, rfl⟩

theorem pfx_refl (a : FsPath) : pfx a a = true :=
  pfx_iff_exists.mpr ⟨[], by simp⟩

theorem pfx_trans {a b c : FsPath} (h1 : pfx a b = true) (h2 : pfx b c = true) :
    pfx a c = true := by
  obtain ⟨t, rfl⟩ := pfx_iff_exists.mp h1
  obtain ⟨s, rfl⟩ := pfx_iff_exists.mp h2
  exact pfx_iff_exists.mpr ⟨t ++ s, by simp⟩

theorem pfx_append_right {a b : FsPath} (t : FsPath) (h : pfx a b = true) :
    pfx a (b ++ t) = true :=
  pfx_trans h (pfx_append b t)

theorem pfx_of_append_eq : ∀ (a b t s : FsPath), a ++ t = b ++ s →
    pfx a b = true ∨ pfx b a = true
  | [], _, _, _, _ => Or.inl rfl
  | _ :: _, [], _, _, _ => Or.inr rfl
  | x :: as, y :: bs, t, s, h => by
    simp only [List.cons_append, List.cons.injEq] at h
    rcases pfx_of_append_eq as bs t s h.2 with hh | hh
    · left; simp [pfx, h.1, hh]
    · right; simp [pfx, h.1.symm, hh]

/-- Two ancestors of one path are comparable. -/
theorem pfx_comparable {a b c : FsPath} (h1 : pfx a c = true) (h2 : pfx b c = true) :
    pfx a b = true ∨ pfx b a = true := by
  obtain ⟨t, rfl⟩ := pfx_iff_exists.mp h1
  obtain ⟨s, hs⟩ := pfx_iff_exists.mp h2
  exact pfx_of_append_eq a b t s hs

theorem pfx_append_cases {q a t : FsPath} (h : pfx q (a ++ t) = true) :
    pfx q a = true ∨ pfx a q = true :=
  pfx_comparable h (pfx_append a t)

theorem mem_initsOf {q p : FsPath} : q ∈ initsOf p ↔ pfx q p = true := by
  induction p generalizing q with
  | nil => cases q <;> simp [initsOf, pfx]
  | cons a as ih =>
    cases q with
    | nil => simp [initsOf, pfx]
    | cons x xs =>
      simp only [initsOf, List.mem_cons, List.mem_map]
      constructor
      · rintro (h | ⟨r, hr, heq⟩)
        · exact absurd h (by simp)
        · injection heq with h1 h2
          subst h1
          subst h2
          simp [pfx, ih.mp hr]
      · intro h
        simp only [pfx] at h
        by_cases hax : x = a
        · subst hax
          rw [if_pos rfl] at h
          exact Or.inr ⟨xs, ih.mpr h, rfl⟩
        · rw [if_neg hax] at h
          exact absurd h (by simp)

/-! ### Lemmas about the file association list -/

theorem lookupFile_setFile (m : FileMap) (p q : FsPath) (f : File) :
    lookupFile (setFile m p f) q = if q = p then some f else lookupFile m q := by
  induction m with
  | nil =>
    by_cases h : q = p
    · simp [setFile, lookupFile, h]
    · have h' : ¬ p = q := fun hh => h hh.symm
      simp [setFile, lookupFile, h, h']
  | cons e rest ih =>
    by_cases h1 : e.1 = p
    · by_cases h2 : q = p
      · simp [setFile, if_pos h1, lookupFile, h2]
      · have h3 : ¬ p = q := fun hh => h2 hh.symm
        have h4 : ¬ e.1 = q := by rw [h1]; exact h3
        simp [setFile, if_pos h1, lookupFile, h2, h3, h4]
    · by_cases h2 : e.1 = q
      · have h5 : ¬ q = p := fun hh => h1 (h2.trans hh)
        simp [setFile, if_neg h1, lookupFile, h2, h5]
      · simp [setFile, if_neg h1, lookupFile, h2, ih]

theorem lookupFile_eq_none_iff {m : FileMap} {p : FsPath} :
    lookupFile m p = none ↔ ∀ e ∈ m, e.1 ≠ p := by
  induction m with
  | nil => simp [lookupFile]
  | cons e rest ih =>
    simp only [lookupFile, List.forall_mem_cons]
    by_cases h : e.1 = p
    · simp only [if_pos h]
      constructor
      · intro hh; exact absurd hh (by simp)
      · intro hh; exact absurd h hh.1
    · simp only [if_neg h, ih]
      constructor
      · intro hh; exact ⟨h, hh⟩
      · intro hh; exact hh.2

theorem lookupFile_mem {m : FileMap} {p : FsPath} {f : File}
    (h : lookupFile m p = some f) : (p, f) ∈ m := by
  induction m with
  | nil => simp [lookupFile] at h
  | cons e rest ih =>
    simp only [lookupFile] at h
    by_cases h1 : e.1 = p
    · rw [if_pos h1] at h
      injection h with h2
      have he : e = (p, f) := by cases e; simp_all
      rw [← he]
      exact List.mem_cons_self _ _
    · rw [if_neg h1] at h
      exact List.mem_cons_of_mem _ (ih h)

theorem lookupFile_of_mem {m : FileMap} {p : FsPath} {f : File}
    (hnd : (m.map Prod.fst).Nodup) (h : (p, f) ∈ m) : lookupFile m p = some f := by
  induction m with
  | nil => cases h
  | cons e rest ih =>
    simp only [List.map_cons, List.nodup_cons] at hnd
    rcases List.mem_cons.mp h with h1 | h1
    · simp [lookupFile, ← h1]
    · have hne : ¬ e.1 = p := by
        intro hh
        exact hnd.1 (hh ▸ List.mem_map_of_mem Prod.fst h1)
      simp [lookupFile, hne, ih hnd.2 h1]

theorem lookupFile_filter {m : FileMap} {p : FsPath} {pred : FsPath × File → Bool}
    (h : ∀ e ∈ m, e.1 = p → pred e = true) :
    lookupFile (m.filter pred) p = lookupFile m p := by
  induction m with
  | nil => simp
  | cons e rest ih =>
    have ihh := ih (fun x hx hh => h x (List.mem_cons_of_mem e hx) hh)
    simp only [List.filter_cons]
    by_cases h1 : e.1 = p
    · rw [h e (List.mem_cons_self e rest) h1]
      simp [lookupFile, h1]
    · by_cases h2 : pred e = true
      · simp [h2, lookupFile, h1, ihh]
      · simp only [Bool.not_eq_true] at h2
        simp [h2, lookupFile, h1, ihh]

/-! ### Pointwise behaviour of a reconciliation pass -/

theorem lookupFile_copyStep (m : FileMap) (e : FsPath × File) (q : FsPath) :
    lookupFile (copyStep m e) q =
      if q = e.1 then mergeStep e.2 (lookupFile m e.1) else lookupFile m q := by
  cases hl : lookupFile m e.1 with
  | none =>
    simp [copyStep, willCopy, hl, lookupFile_setFile, mergeStep]
  | some g =>
    by_cases hlt : g.mtime < e.2.mtime
    · simp [copyStep, willCopy, hl, hlt, lookupFile_setFile, mergeStep]
    · simp only [copyStep, willCopy, hl, if_neg hlt, if_false, Bool.false_eq_true, reduceIte]
      by_cases hq : q = e.1
      · subst hq
        simp [mergeStep, hlt, hl]
      · simp [hq]

theorem lookupFile_foldl_copyStep_not_mem (l : List (FsPath × File)) (m : FileMap) (q : FsPath)
    (h : ∀ e ∈ l, e.1 ≠ q) :
    lookupFile (l.foldl copyStep m) q = lookupFile m q := by
  induction l generalizing m with
  | nil => rfl
  | cons e rest ih =>
    simp only [List.foldl_cons]
    rw [ih _ (fun x hx => h x (List.mem_cons_of_mem e hx)), lookupFile_copyStep]
    rw [if_neg (fun hh : q = e.1 => h e (List.mem_cons_self e rest) hh.symm)]

/-- The value of the destination map at one path, after folding a source
file list with distinct paths through the copy condition. -/
theorem lookupFile_syncFold (l : List (FsPath × File)) (m : FileMap) (q : FsPath)
    (hnd : (l.map Prod.fst).Nodup) :
    lookupFile (l.foldl copyStep m) q = mergeAt (lookupFile l q) (lookupFile m q) := by
  induction l generalizing m with
  | nil => simp [lookupFile, mergeAt]
  | cons e rest ih =>
    simp only [List.map_cons, List.nodup_cons] at hnd
    simp only [List.foldl_cons]
    by_cases hq : q = e.1
    · subst hq
      rw [lookupFile_foldl_copyStep_not_mem rest (copyStep m e) e.1
        (fun x hx hh => hnd.1 (hh ▸ List.mem_map_of_mem Prod.fst hx))]
      rw [lookupFile_copyStep, if_pos rfl]
      simp [lookupFile, mergeAt]
    · rw [ih (copyStep m e) hnd.2, lookupFile_copyStep, if_neg hq]
      have hl : lookupFile (e :: rest) q = lookupFile rest q := by
        have hne : ¬ e.1 = q := fun hh => hq hh.symm
        simp [lookupFile, hne]
      rw [hl]

theorem keys_setFile (m : FileMap) (p : FsPath) (f : File) :
    (setFile m p f).map Prod.fst =
      if p ∈ m.map Prod.fst then m.map Prod.fst else m.map Prod.fst ++ [p] := by
  induction m with
  | nil =>
    rw [List.map_nil, if_neg (List.not_mem_nil p)]
    simp [setFile]
  | cons e rest ih =>
    by_cases h : e.1 = p
    · have hmem : p ∈ (e :: rest).map Prod.fst := by
        rw [List.map_cons, h]
        exact List.mem_cons_self p _
      rw [if_pos hmem]
      simp [setFile, h]
    · have hpe : ¬ p = e.1 := fun hh => h hh.symm
      simp only [setFile, if_neg h, List.map_cons, ih, List.mem_cons]
      by_cases hm : p ∈ rest.map Prod.fst
      · simp [hm, hpe]
      · simp [hm, hpe]

theorem nodup_keys_copyStep {m : FileMap} (e : FsPath × File)
    (h : (m.map Prod.fst).Nodup) : ((copyStep m e).map Prod.fst).Nodup := by
  unfold copyStep
  by_cases hw : willCopy m e.1 e.2 = true
  · rw [if_pos hw, keys_setFile]
    by_cases hm : e.1 ∈ m.map Prod.fst
    · simp [hm, h]
    · rw [if_neg hm]
      exact h.append (List.nodup_singleton _)
        (fun a ha hb => hm ((List.mem_singleton.mp hb) ▸ ha))
  · rw [if_neg hw]
    exact h

theorem nodup_keys_foldl_copyStep (l : List (FsPath × File)) {m : FileMap}
    (h : (m.map Prod.fst).Nodup) : ((l.foldl copyStep m).map Prod.fst).Nodup := by
  induction l generalizing m with
  | nil => exact h
  | cons e rest ih => exact ih (nodup_keys_copyStep e h)

theorem isSome_foldl_copyStep (l : List (FsPath × File)) (m : FileMap) (q : FsPath)
    (h : (lookupFile m q).isSome = true) :
    (lookupFile (l.foldl copyStep m) q).isSome = true := by
  induction l generalizing m with
  | nil => exact h
  | cons e rest ih =>
    refine ih (copyStep m e) ?_
    rw [lookupFile_copyStep]
    by_cases hq : q = e.1
    · subst hq
      cases hl : lookupFile m e.1 with
      | none => rw [hl] at h; simp at h
      | some g =>
        rw [if_pos rfl]
        simp only [mergeStep]
        split <;> rfl
    · rw [if_neg hq]
      exact h

/-! ### Lemmas about directory creation -/

theorem mem_foldl_insertDir (l : List FsPath) (ds : List FsPath) (q : FsPath) :
    q ∈ l.foldl insertDir ds ↔ q ∈ ds ∨ q ∈ l := by
  induction l generalizing ds with
  | nil => simp
  | cons a rest ih =>
    rw [List.foldl_cons, ih, List.mem_cons]
    unfold insertDir
    by_cases h : a ∈ ds
    · rw [if_pos h]
      constructor
      · tauto
      · rintro (hh | hh | hh)
        · exact Or.inl hh
        · exact Or.inl (hh ▸ h)
        · exact Or.inr hh
    · rw [if_neg h, List.mem_append, List.mem_singleton]
      tauto

theorem mem_makedirs (ds : List FsPath) (p q : FsPath) :
    q ∈ makedirs ds p ↔ q ∈ ds ∨ pfx q p = true := by
  unfold makedirs
  rw [mem_foldl_insertDir, mem_initsOf]

theorem mem_mkdirStep_of_mem {ds : List FsPath} {q : FsPath} (p : FsPath) (h : q ∈ ds) :
    q ∈ mkdirStep ds p := by
  unfold mkdirStep
  split
  · exact h
  · exact (mem_makedirs ds p q).mpr (Or.inl h)

theorem self_mem_mkdirStep (ds : List FsPath) (p : FsPath) : p ∈ mkdirStep ds p := by
  unfold mkdirStep
  split
  · assumption
  · exact (mem_makedirs ds p p).mpr (Or.inr (pfx_refl p))

theorem mem_foldl_mkdirStep_of_mem (l : List FsPath) {ds : List FsPath} {q : FsPath}
    (h : q ∈ ds) : q ∈ l.foldl mkdirStep ds := by
  induction l generalizing ds with
  | nil => exact h
  | cons a rest ih => exact ih (mem_mkdirStep_of_mem a h)

theorem mem_foldl_mkdirStep_of_mem_list : ∀ (l : List FsPath) (ds : List FsPath) (q : FsPath),
    q ∈ l → q ∈ l.foldl mkdirStep ds
  | [], _, _, h => absurd h (by simp)
  | a :: rest, ds, q, h => by
    rcases List.mem_cons.mp h with rfl | h2
    · exact mem_foldl_mkdirStep_of_mem rest (self_mem_mkdirStep ds q)
    · exact mem_foldl_mkdirStep_of_mem_list rest (mkdirStep ds a) q h2

/-! ### Pointwise behaviour of a full sync_folders_with_progress call -/

theorem lookupFile_syncPass (src dest : FsTree) (q : FsPath)
    (hnd : (src.files.map Prod.fst).Nodup) :
    lookupFile (syncPass src dest).files q =
      mergeAt (lookupFile src.files q) (lookupFile dest.files q) :=
  lookupFile_syncFold src.files dest.files q hnd

theorem nodup_syncPass (src dest : FsTree) (h : (dest.files.map Prod.fst).Nodup) :
    ((syncPass src dest).files.map Prod.fst).Nodup :=
  nodup_keys_foldl_copyStep src.files h

theorem sync_lookup (A B : FsTree) (q : FsPath)
    (hA : (A.files.map Prod.fst).Nodup) (hB : (B.files.map Prod.fst).Nodup) :
    lookupFile (sync_folders_with_progress A B).2.files q
        = mergeAt (lookupFile A.files q) (lookupFile B.files q) ∧
    lookupFile (sync_folders_with_progress A B).1.files q
        = mergeAt (mergeAt (lookupFile A.files q) (lookupFile B.files q))
            (lookupFile A.files q) := by
  have h2 : lookupFile (syncPass A B).files q
      = mergeAt (lookupFile A.files q) (lookupFile B.files q) :=
    lookupFile_syncPass A B q hA
  refine ⟨h2, ?_⟩
  have h1 : lookupFile (syncPass (syncPass A B) A).files q =
      mergeAt (lookupFile (syncPass A B).files q) (lookupFile A.files q) :=
    lookupFile_syncPass (syncPass A B) A q (nodup_syncPass A B hB)
  rw [show (sync_folders_with_progress A B).1 = syncPass (syncPass A B) A from rfl, h1, h2]

/-! ### Lemmas about relpath -/

theorem drop_length_append (a t : FsPath) : (a ++ t).drop a.length = t := by
  induction a with
  | nil => rfl
  | cons x as ih => simp [ih]

theorem commonLen_append (a t : FsPath) : commonLen a (a ++ t) = a.length := by
  induction a with
  | nil => rfl
  | cons x as ih => simp [commonLen, ih]

theorem commonLen_le_length (a b : FsPath) : commonLen a b ≤ a.length := by
  induction a generalizing b with
  | nil => cases b <;> simp [commonLen]
  | cons x as ih =>
    cases b with
    | nil => simp [commonLen]
    | cons y bs =>
      simp only [commonLen]
      by_cases h : x = y
      · rw [if_pos h]
        exact Nat.succ_le_succ (ih bs)
      · rw [if_neg h]
        exact Nat.zero_le _

theorem pfx_iff_commonLen {a b : FsPath} : pfx a b = true ↔ commonLen a b = a.length := by
  induction a generalizing b with
  | nil => cases b <;> simp [pfx, commonLen]
  | cons x as ih =>
    cases b with
    | nil => simp [pfx, commonLen]
    | cons y bs =>
      simp only [pfx, commonLen, List.length_cons]
      by_cases h : x = y
      · rw [if_pos h, if_pos h, ih]
        omega
      · rw [if_neg h, if_neg h]
        constructor
        · intro hh
          exact absurd hh (by simp)
        · intro hh
          exact absurd hh (by omega)

theorem relpath_append (start t : FsPath) (h : t ≠ []) : relpath (start ++ t) start = t := by
  simp only [relpath]
  rw [commonLen_append, Nat.sub_self, List.replicate_zero, List.nil_append, drop_length_append]
  exact if_neg h

/-- For a path that is not a descendant of start, os.path.relpath silently
produces a relative path containing a parent-directory component. -/
theorem ddots_mem_relpath {p start : FsPath} (h : pfx start p = false) :
    (".." : String) ∈ relpath p start := by
  have hle := commonLen_le_length start p
  have hne : commonLen start p ≠ start.length := fun hh =>
    absurd (pfx_iff_commonLen.mpr hh) (by simp [h])
  have hmem : (".." : String) ∈
      List.replicate (start.length - commonLen start p) ".." ++ p.drop (commonLen start p) :=
    List.mem_append.mpr (Or.inl (List.mem_replicate.mpr ⟨by omega, rfl⟩))
  have hnil : List.replicate (start.length - commonLen start p) ".."
      ++ p.drop (commonLen start p) ≠ [] := by
    intro hh
    rw [hh] at hmem
    exact absurd hmem (by simp)
  simp only [relpath]
  rw [if_neg hnil]
  exact hmem

/-! ### The two trees agree on modification times after one call -/

theorem sync_mtime_aligned (A B : FsTree) (q : FsPath)
    (hA : (A.files.map Prod.fst).Nodup) (hB : (B.files.map Prod.fst).Nodup) :
    (lookupFile (sync_folders_with_progress A B).1.files q = none ∧
     lookupFile (sync_folders_with_progress A B).2.files q = none) ∨
    (∃ f g, lookupFile (sync_folders_with_progress A B).1.files q = some f ∧
            lookupFile (sync_folders_with_progress A B).2.files q = some g ∧
            f.mtime = g.mtime) := by
  obtain ⟨h2, h1⟩ := sync_lookup A B q hA hB
  rw [h1, h2]
  cases ha : lookupFile A.files q with
  | none =>
    cases hb : lookupFile B.files q with
    | none =>
      left
      simp [mergeAt]
    | some g =>
      right
      exact ⟨g, g, by simp [mergeAt, mergeStep], by simp [mergeAt], rfl⟩
  | some f =>
    cases hb : lookupFile B.files q with
    | none =>
      right
      exact ⟨f, f, by simp [mergeAt, mergeStep], by simp [mergeAt, mergeStep], rfl⟩
    | some g =>
      by_cases hgf : g.mtime < f.mtime
      · right
        refine ⟨f, f, ?_, ?_, rfl⟩ <;> simp [mergeAt, mergeStep, hgf]
      · by_cases hfg : f.mtime < g.mtime
        · right
          refine ⟨g, g, ?_, ?_, rfl⟩ <;> simp [mergeAt, mergeStep, hgf, hfg]
        · right
          refine ⟨f, g, ?_, ?_, by omega⟩ <;> simp [mergeAt, mergeStep, hgf, hfg]

/-! ### Copy counting -/

theorem syncPassCount_fst (l : List (FsPath × File)) :
    ∀ (m : FileMap) (n : Nat),
    (l.foldl (fun acc e =>
        if willCopy acc.1 e.1 e.2 then (setFile acc.1 e.1 e.2, acc.2 + 1) else acc) (m, n)).1
      = l.foldl copyStep m := by
  induction l with
  | nil =>
    intro m n
    rfl
  | cons e rest ih =>
    intro m n
    simp only [List.foldl_cons, copyStep]
    by_cases hw : willCopy m e.1 e.2 = true
    · rw [if_pos hw, if_pos hw]
      exact ih _ _
    · rw [if_neg hw, if_neg hw]
      exact ih _ _

theorem syncPassCount_zero (l : List (FsPath × File)) :
    ∀ (m : FileMap) (n : Nat), (∀ e ∈ l, willCopy m e.1 e.2 = false) →
    l.foldl (fun acc e =>
        if willCopy acc.1 e.1 e.2 then (setFile acc.1 e.1 e.2, acc.2 + 1) else acc) (m, n)
      = (m, n) := by
  induction l with
  | nil =>
    intro m n _
    rfl
  | cons e rest ih =>
    intro m n h
    simp only [List.foldl_cons]
    rw [if_neg (by simp [h e (List.mem_cons_self e rest)])]
    exact ih m n (fun x hx => h x (List.mem_cons_of_mem e hx))

theorem second_sync_zero (A B : FsTree)
    (hA : (A.files.map Prod.fst).Nodup) (hB : (B.files.map Prod.fst).Nodup) :
    syncCopyCount (sync_folders_with_progress A B).1 (sync_folders_with_progress A B).2 = 0 := by
  have hA1 : ((sync_folders_with_progress A B).1.files.map Prod.fst).Nodup :=
    nodup_keys_foldl_copyStep _ hA
  have hB1 : ((sync_folders_with_progress A B).2.files.map Prod.fst).Nodup :=
    nodup_keys_foldl_copyStep _ hB
  have key1 : ∀ e ∈ (sync_folders_with_progress A B).1.files,
      willCopy (sync_folders_with_progress A B).2.files e.1 e.2 = false := by
    intro e he
    have hlA : lookupFile (sync_folders_with_progress A B).1.files e.1 = some e.2 :=
      lookupFile_of_mem hA1 he
    rcases sync_mtime_aligned A B e.1 hA hB with ⟨hn1, _⟩ | ⟨f, g, hf, hg, heq⟩
    · rw [hlA] at hn1
      exact absurd hn1 (by simp)
    · rw [hlA] at hf
      injection hf with hh
      have hmt : e.2.mtime = g.mtime := by rw [hh, heq]
      simp only [willCopy, hg]
      rw [if_neg (by omega)]
  have key2 : ∀ e ∈ (sync_folders_with_progress A B).2.files,
      willCopy (sync_folders_with_progress A B).1.files e.1 e.2 = false := by
    intro e he
    have hlB : lookupFile (sync_folders_with_progress A B).2.files e.1 = some e.2 :=
      lookupFile_of_mem hB1 he
    rcases sync_mtime_aligned A B e.1 hA hB with ⟨_, hn2⟩ | ⟨f, g, hf, hg, heq⟩
    · rw [hlB] at hn2
      exact absurd hn2 (by simp)
    · rw [hlB] at hg
      injection hg with hh
      have hmt : e.2.mtime = f.mtime := by rw [hh]; omega
      simp only [willCopy, hf]
      rw [if_neg (by omega)]
  have q1 : syncPassCount (sync_folders_with_progress A B).1.files
      (sync_folders_with_progress A B).2.files
      = ((sync_folders_with_progress A B).2.files, 0) :=
    syncPassCount_zero _ _ 0 key1
  have q2 : syncPassCount (sync_folders_with_progress A B).2.files
      (sync_folders_with_progress A B).1.files
      = ((sync_folders_with_progress A B).1.files, 0) :=
    syncPassCount_zero _ _ 0 key2
  simp only [syncCopyCount]
  rw [q1]
  show ((sync_folders_with_progress A B).2.files, 0).2 +
      (syncPassCount (sync_folders_with_progress A B).2.files
        (sync_folders_with_progress A B).1.files).2 = 0
  rw [q2]
  rfl

/-! ### Lemmas about the event handler's filesystem operations -/

theorem pfx_m_mapped (w m p : FsPath) : pfx m (mapped w m p) = true :=
  pfx_append m (relpath p w)

theorem pfx_mapped_cases {q w m p : FsPath} (h : pfx q (mapped w m p) = true) :
    pfx q m = true ∨ pfx m q = true :=
  pfx_append_cases h

theorem ne_mapped_of_not_pfx {w m p q : FsPath} (hq : pfx m q = false) : q ≠ mapped w m p := by
  intro hh
  rw [hh, pfx_m_mapped] at hq
  exact Bool.noConfusion hq

theorem pfx_mapped_eq_false {w m p q : FsPath} (hq : pfx m q = false) :
    pfx (mapped w m p) q = false := by
  cases hc : pfx (mapped w m p) q
  · rfl
  · exact absurd (pfx_trans (pfx_m_mapped w m p) hc) (by simp [hq])

theorem replacePfx_eq_iff (mroot old new q k : FsPath)
    (hmo : pfx mroot old = true) (hmn : pfx mroot new = true) (hq : pfx mroot q = false) :
    replacePfx old new k = q ↔ k = q := by
  unfold replacePfx
  by_cases hp : pfx old k = true
  · rw [if_pos hp]
    constructor
    · intro hh
      exfalso
      have hmq : pfx mroot q = true := by
        rw [← hh]
        exact pfx_append_right _ hmn
      rw [hmq] at hq
      exact Bool.noConfusion hq
    · intro hh
      exfalso
      subst hh
      exact absurd (pfx_trans hmo hp) (by simp [hq])
  · rw [if_neg hp]

theorem lookupFile_map_replacePfx (l : FileMap) (mroot old new q : FsPath)
    (hmo : pfx mroot old = true) (hmn : pfx mroot new = true) (hq : pfx mroot q = false) :
    lookupFile (l.map (fun e => (replacePfx old new e.1, e.2))) q = lookupFile l q := by
  induction l with
  | nil => rfl
  | cons e rest ih =>
    simp only [List.map_cons, lookupFile]
    by_cases hk : e.1 = q
    · rw [if_pos ((replacePfx_eq_iff mroot old new q e.1 hmo hmn hq).mpr hk), if_pos hk]
    · rw [if_neg (fun hh => hk ((replacePfx_eq_iff mroot old new q e.1 hmo hmn hq).mp hh)),
        if_neg hk, ih]

theorem mem_map_replacePfx (l : List FsPath) (mroot old new q : FsPath)
    (hmo : pfx mroot old = true) (hmn : pfx mroot new = true) (hq : pfx mroot q = false) :
    q ∈ l.map (replacePfx old new) ↔ q ∈ l := by
  rw [List.mem_map]
  constructor
  · rintro ⟨k, hk, hkq⟩
    exact (replacePfx_eq_iff mroot old new q k hmo hmn hq).mp hkq ▸ hk
  · intro hh
    exact ⟨q, hh, (replacePfx_eq_iff mroot old new q q hmo hmn hq).mpr rfl⟩

theorem lookupFile_movePath_new (l : FileMap) (old new : FsPath) (f : File)
    (h1 : lookupFile l old = some f) (h2 : lookupFile l new = none) :
    lookupFile (l.map (fun e => (replacePfx old new e.1, e.2))) new = some f := by
  induction l with
  | nil => exact absurd h1 (by simp [lookupFile])
  | cons e rest ih =>
    have hne_new : ¬ e.1 = new := by
      intro hh
      simp only [lookupFile, if_pos hh] at h2
      exact Option.noConfusion h2
    simp only [lookupFile, if_neg hne_new] at h2
    simp only [lookupFile] at h1
    simp only [List.map_cons, lookupFile]
    by_cases hk : e.1 = old
    · rw [if_pos hk] at h1
      injection h1 with hf
      have hrep : replacePfx old new e.1 = new := by
        rw [hk]
        unfold replacePfx
        rw [if_pos (pfx_refl old), List.drop_length, List.append_nil]
      rw [if_pos hrep, hf]
    · rw [if_neg hk] at h1
      have hne : ¬ replacePfx old new e.1 = new := by
        unfold replacePfx
        by_cases hp : pfx old e.1 = true
        · rw [if_pos hp]
          intro hh
          have hlen := congrArg List.length hh
          simp only [List.length_append] at hlen
          have hd : e.1.drop old.length = [] :=
            List.eq_nil_of_length_eq_zero (by omega)
          obtain ⟨t, ht⟩ := pfx_iff_exists.mp hp
          rw [ht, drop_length_append] at hd
          exact hk (by rw [ht, hd, List.append_nil])
        · rw [if_neg hp]
          exact hne_new
      rw [if_neg hne]
      exact ih h1 h2

theorem lookupFile_movePath_old (l : FileMap) (old new : FsPath)
    (h3 : pfx new old = false) :
    lookupFile (l.map (fun e => (replacePfx old new e.1, e.2))) old = none := by
  rw [lookupFile_eq_none_iff]
  intro e he
  rw [List.mem_map] at he
  obtain ⟨x, _, rfl⟩ := he
  show replacePfx old new x.1 ≠ old
  unfold replacePfx
  by_cases hp : pfx old x.1 = true
  · rw [if_pos hp]
    intro hh
    exact absurd (hh ▸ pfx_append new _) (by simp [h3])
  · rw [if_neg hp]
    intro hh
    rw [hh] at hp
    exact hp (pfx_refl old)

/-- Frame property of a successful os.rename between two paths below the
mirror root: nothing outside the mirror root changes. -/
theorem osRename_frame (fs : FsTree) (mroot src dst q : FsPath)
    (hms : pfx mroot src = true) (hmd : pfx mroot dst = true) (hq : pfx mroot q = false)
    (fs1 : FsTree) (hok : osRename fs src dst = Except.ok fs1) :
    lookupFile fs1.files q = lookupFile fs.files q ∧ (q ∈ fs1.dirs ↔ q ∈ fs.dirs) := by
  unfold osRename at hok
  by_cases h1 : fsExists fs src = true
  · rw [if_pos h1] at hok
    by_cases h2 : dst.dropLast ∈ fs.dirs
    · rw [if_pos h2] at hok
      injection hok with hfs1
      subst hfs1
      constructor
      · have hstep : lookupFile ((removeFile fs dst).files.map
            (fun e => (replacePfx src dst e.1, e.2))) q
            = lookupFile (removeFile fs dst).files q :=
          lookupFile_map_replacePfx _ mroot _ _ q hms hmd hq
        have hrem : lookupFile (removeFile fs dst).files q = lookupFile fs.files q := by
          show lookupFile (fs.files.filter fun e => !(decide (e.1 = dst))) q
              = lookupFile fs.files q
          apply lookupFile_filter
          intro e _ hek
          have hne : q ≠ dst := by
            intro hh
            rw [hh, hmd] at hq
            exact Bool.noConfusion hq
          rw [hek, decide_eq_false hne]
          rfl
        exact hstep.trans hrem
      · exact mem_map_replacePfx fs.dirs mroot _ _ q hms hmd hq
    · rw [if_neg h2] at hok
      exact Except.noConfusion hok
  · rw [if_neg h1] at hok
    exact Except.noConfusion hok

/-- Frame property of one handled event: every path that is not below the
mirror root is untouched, both as a file and as a directory, provided the
mirror root's ancestor chain exists (so os.makedirs never creates anything
above the mirror root). -/
theorem on_any_event_frame (w m : FsPath) (fs : FsTree) (e : Event) (q : FsPath)
    (hRootEx : ∀ r ∈ initsOf m, r ∈ fs.dirs)
    (hq : pfx m q = false) :
    lookupFile (on_any_event w m fs e).1.files q = lookupFile fs.files q ∧
    (q ∈ (on_any_event w m fs e).1.dirs ↔ q ∈ fs.dirs) := by
  cases e with
  | created p =>
    by_cases hd : p ∈ fs.dirs
    · have hres : on_any_event w m fs (Event.created p)
          = (makedirsFs fs (mapped w m p), none) := by
        simp only [on_any_event, on_any_event_body]
        rw [if_pos hd]
      rw [hres]
      refine ⟨rfl, ?_⟩
      show q ∈ makedirs fs.dirs (mapped w m p) ↔ q ∈ fs.dirs
      rw [mem_makedirs]
      constructor
      · rintro (hh | hh)
        · exact hh
        · rcases pfx_mapped_cases hh with h2 | h2
          · exact hRootEx q (mem_initsOf.mpr h2)
          · rw [h2] at hq
            exact Bool.noConfusion hq
      · exact Or.inl
    · cases hl : lookupFile fs.files p with
      | none =>
        have hres : on_any_event w m fs (Event.created p)
            = (fs, some (errorMessage (Event.created p) (HandlerError.ioError p))) := by
          simp only [on_any_event, on_any_event_body]
          rw [if_neg hd]
          simp only [copy2, hl]
        rw [hres]
        exact ⟨rfl, Iff.rfl⟩
      | some f =>
        have hres : on_any_event w m fs (Event.created p)
            = ({ fs with files := setFile fs.files (mapped w m p) f }, none) := by
          simp only [on_any_event, on_any_event_body]
          rw [if_neg hd]
          simp only [copy2, hl]
        rw [hres]
        refine ⟨?_, Iff.rfl⟩
        show lookupFile (setFile fs.files (mapped w m p) f) q = lookupFile fs.files q
        rw [lookupFile_setFile, if_neg (ne_mapped_of_not_pfx hq)]
  | modified p =>
    by_cases hd : p ∈ fs.dirs
    · have hres : on_any_event w m fs (Event.modified p) = (fs, none) := by
        simp only [on_any_event, on_any_event_body]
        rw [if_pos hd]
      rw [hres]
      exact ⟨rfl, Iff.rfl⟩
    · cases hl : lookupFile fs.files p with
      | none =>
        have hres : on_any_event w m fs (Event.modified p)
            = (fs, some (errorMessage (Event.modified p) (HandlerError.ioError p))) := by
          simp only [on_any_event, on_any_event_body]
          rw [if_neg hd]
          simp only [copy2, hl]
        rw [hres]
        exact ⟨rfl, Iff.rfl⟩
      | some f =>
        have hres : on_any_event w m fs (Event.modified p)
            = ({ fs with files := setFile fs.files (mapped w m p) f }, none) := by
          simp only [on_any_event, on_any_event_body]
          rw [if_neg hd]
          simp only [copy2, hl]
        rw [hres]
        refine ⟨?_, Iff.rfl⟩
        show lookupFile (setFile fs.files (mapped w m p) f) q = lookupFile fs.files q
        rw [lookupFile_setFile, if_neg (ne_mapped_of_not_pfx hq)]
  | deleted p =>
    by_cases hd : mapped w m p ∈ fs.dirs
    · have hres : on_any_event w m fs (Event.deleted p)
          = (rmtree fs (mapped w m p), none) := by
        simp only [on_any_event, on_any_event_body]
        rw [if_pos hd]
      rw [hres]
      constructor
      · show lookupFile (fs.files.filter fun e => !(pfx (mapped w m p) e.1)) q
            = lookupFile fs.files q
        apply lookupFile_filter
        intro e _ hek
        rw [hek, pfx_mapped_eq_false hq]
        rfl
      · show q ∈ fs.dirs.filter (fun d => !(pfx (mapped w m p) d)) ↔ q ∈ fs.dirs
        rw [List.mem_filter]
        constructor
        · exact fun hh => hh.1
        · intro hh
          refine ⟨hh, ?_⟩
          rw [pfx_mapped_eq_false hq]
          rfl
    · by_cases hf : (lookupFile fs.files (mapped w m p)).isSome = true
      · have hres : on_any_event w m fs (Event.deleted p)
            = (removeFile fs (mapped w m p), none) := by
          simp only [on_any_event, on_any_event_body]
          rw [if_neg hd, if_pos hf]
        rw [hres]
        refine ⟨?_, Iff.rfl⟩
        show lookupFile (fs.files.filter fun e => !(decide (e.1 = mapped w m p))) q
            = lookupFile fs.files q
        apply lookupFile_filter
        intro e _ hek
        rw [hek, decide_eq_false (ne_mapped_of_not_pfx hq)]
        rfl
      · have hres : on_any_event w m fs (Event.deleted p) = (fs, none) := by
          simp only [on_any_event, on_any_event_body]
          rw [if_neg hd, if_neg hf]
        rw [hres]
        exact ⟨rfl, Iff.rfl⟩
  | moved p p2 =>
    have hmo := pfx_m_mapped w m p
    have hmn := pfx_m_mapped w m p2
    by_cases hdir : mapped w m p2 ∈ fs.dirs
    · by_cases hex2 : fsExists fs (mapped w m p2 ++ baseName (mapped w m p)) = true
      · have hres : on_any_event w m fs (Event.moved p p2)
            = (fs, some (errorMessage (Event.moved p p2)
                (HandlerError.destExists (mapped w m p2 ++ baseName (mapped w m p))))) := by
          simp only [on_any_event, on_any_event_body, shutil_move]
          rw [if_pos hdir, if_pos hex2]
        rw [hres]
        exact ⟨rfl, Iff.rfl⟩
      · cases hor : osRename fs (mapped w m p) (mapped w m p2 ++ baseName (mapped w m p)) with
        | ok fs1 =>
          have hres : on_any_event w m fs (Event.moved p p2) = (fs1, none) := by
            simp only [on_any_event, on_any_event_body, shutil_move]
            rw [if_pos hdir, if_neg hex2, hor]
          rw [hres]
          exact osRename_frame fs m _ _ q hmo (pfx_append_right _ hmn) hq fs1 hor
        | error err =>
          have hres : on_any_event w m fs (Event.moved p p2)
              = (fs, some (errorMessage (Event.moved p p2) err)) := by
            simp only [on_any_event, on_any_event_body, shutil_move]
            rw [if_pos hdir, if_neg hex2, hor]
          rw [hres]
          exact ⟨rfl, Iff.rfl⟩
    · cases hor : osRename fs (mapped w m p) (mapped w m p2) with
      | ok fs1 =>
        have hres : on_any_event w m fs (Event.moved p p2) = (fs1, none) := by
          simp only [on_any_event, on_any_event_body, shutil_move]
          rw [if_neg hdir, hor]
        rw [hres]
        exact osRename_frame fs m _ _ q hmo hmn hq fs1 hor
      | error err =>
        have hres : on_any_event w m fs (Event.moved p p2)
            = (fs, some (errorMessage (Event.moved p p2) err)) := by
          simp only [on_any_event, on_any_event_body, shutil_move]
          rw [if_neg hdir, hor]
        rw [hres]
        exact ⟨rfl, Iff.rfl⟩

/-! ### Claim theorems -/

/-- C8: for every path strictly under root R1 (a normalized path, as
os.path.abspath guarantees), mapping it from R1 to R2 and mapping the
result back from R2 to R1 yields the original path. -/
theorem c8_roundtrip (r1 r2 rel : FsPath) (hrel : rel ≠ [])
    (_hn1 : "." ∉ r1 ∧ ".." ∉ r1) (_hn2 : "." ∉ r2 ∧ ".." ∉ r2)
    (_hn3 : "." ∉ rel ∧ ".." ∉ rel) :
    mapped r1 r2 (r1 ++ rel) = r2 ++ rel ∧
    mapped r2 r1 (mapped r1 r2 (r1 ++ rel)) = r1 ++ rel := by
  have h1 : mapped r1 r2 (r1 ++ rel) = r2 ++ rel := by
    unfold mapped
    rw [relpath_append r1 rel hrel]
  refine ⟨h1, ?_⟩
  rw [h1]
  unfold mapped
  rw [relpath_append r2 rel hrel]

theorem c8_roundtrip_witness :
    mapped ["a"] ["b"] (["a"] ++ ["x", "y"]) = ["b"] ++ ["x", "y"] ∧
    mapped ["b"] ["a"] (mapped ["a"] ["b"] (["a"] ++ ["x", "y"])) = ["a"] ++ ["x", "y"] :=
  c8_roundtrip ["a"] ["b"] ["x", "y"] (by decide) (by decide) (by decide) (by decide)

/-- C5 counterexample: for a path that is not a descendant of the watched
root, the mapping does not fail at all.  os.path.relpath silently returns a
'..'-filled relative path, the handler computes a mapped path containing
'..', and the event is handled without any reported error. -/
theorem c5_counterexample :
    pfx ["w"] ["etc", "x"] = false ∧
    mapped ["w"] ["m"] ["etc", "x"] = ["m", "..", "etc", "x"] ∧
    on_any_event ["w"] ["m"] { dirs := [], files := [] } (Event.deleted ["etc", "x"])
      = ({ dirs := [], files := [] }, none) := by
  decide

/-- C5 (amended): for an input path that is not a descendant of fromRoot,
the path mapping does not fail with any error: os.path.relpath silently
produces a relative path containing a parent-directory component, and the
mapping returns toRoot joined with it, a path that can denote a location
outside toRoot.  No PathOutsideRootError check exists in the code. -/
theorem c5_mapping_never_fails (p fromRoot toRoot : FsPath) (h : pfx fromRoot p = false) :
    (".." : String) ∈ relpath p fromRoot ∧
    mapped fromRoot toRoot p = toRoot ++ relpath p fromRoot :=
  ⟨ddots_mem_relpath h, rfl⟩

theorem c5_mapping_never_fails_witness :
    (".." : String) ∈ relpath ["etc", "x"] ["w"] ∧
    mapped ["w"] ["m"] ["etc", "x"] = ["m"] ++ relpath ["etc", "x"] ["w"] :=
  c5_mapping_never_fails ["etc", "x"] ["w"] ["m"] (by decide)

/-- C6 counterexample: with an I/O failure on the first file's copy, the
reconciliation pass terminates with the error escaping (main.py has no
try/except around shutil.copy2) and the second file is never copied, so
the scan does not continue with the remaining files. -/
theorem c6_counterexample :
    (syncPassE [["a"]] [(["a"], ⟨0, 1⟩), (["b"], ⟨0, 1⟩)] []).2
      = some (SyncErr.ioError ["a"]) ∧
    lookupFile (syncPassE [["a"]] [(["a"], ⟨0, 1⟩), (["b"], ⟨0, 1⟩)] []).1 ["b"] = none := by
  decide

/-- C6 (amended): an I/O failure during one file's reconciliation copy is
not caught: the exception propagates out of the scan loop immediately, the
destination keeps only the copies made before the failing file, and the
remaining files are not visited at all. -/
theorem c6_failure_aborts_scan (bad : List FsPath) (rest : List (FsPath × File))
    (m : FileMap) (p : FsPath) (f : File)
    (h1 : willCopy m p f = true) (h2 : p ∈ bad) :
    syncPassE bad ((p, f) :: rest) m = (m, some (SyncErr.ioError p)) := by
  unfold syncPassE
  rw [if_pos h1, if_pos h2]

theorem c6_failure_aborts_scan_witness :
    syncPassE [["a"]] [(["a"], ⟨0, 1⟩), (["b"], ⟨0, 2⟩)] []
      = ([], some (SyncErr.ioError ["a"])) :=
  c6_failure_aborts_scan [["a"]] [(["b"], ⟨0, 2⟩)] [] ["a"] ⟨0, 1⟩ (by decide) (by decide)

/-- C7 counterexample: a source tree with one empty directory and no files
at all; after one sync_folders_with_progress call the destination contains
that directory, so an empty directory on the src side is propagated. -/
theorem c7_counterexample :
    ({ dirs := [[], ["emptyd"]], files := [] } : FsTree).files = [] ∧
    (["emptyd"] : FsPath) ∉ ({ dirs := [[]], files := [] } : FsTree).dirs ∧
    (["emptyd"] : FsPath) ∈
      (sync_folders_with_progress { dirs := [[], ["emptyd"]], files := [] }
        { dirs := [[]], files := [] }).2.dirs := by
  decide

/-- C7 (amended): the reconciliation pass creates a destination directory
for every directory enumerated under src, whether or not it contains any
file: os.walk yields every directory and the pass runs os.makedirs on each
missing counterpart before looking at its files, so empty directories on
the src side are propagated to dest. -/
theorem c7_empty_dirs_created (src dest : FsTree) (d : FsPath) (h : d ∈ src.dirs) :
    d ∈ (sync_folders_with_progress src dest).2.dirs :=
  mem_foldl_mkdirStep_of_mem_list src.dirs dest.dirs d h

theorem c7_empty_dirs_created_witness :
    (["emptyd"] : FsPath) ∈ (sync_folders_with_progress
      { dirs := [[], ["emptyd"]], files := [] } { dirs := [[]], files := [] }).2.dirs :=
  c7_empty_dirs_created { dirs := [[], ["emptyd"]], files := [] }
    { dirs := [[]], files := [] } ["emptyd"] (by decide)

/-- C10: one sync_folders_with_progress call never removes anything: every
directory and every file present in either tree beforehand still exists
afterwards (file contents may be overwritten, but the path stays present);
in particular a file present only on the dest side survives. -/
theorem c10_nothing_removed (src dest : FsTree) (d1 d2 q1 q2 : FsPath) (f1 f2 : File)
    (h1 : d1 ∈ src.dirs) (h2 : d2 ∈ dest.dirs)
    (h3 : lookupFile src.files q1 = some f1) (h4 : lookupFile dest.files q2 = some f2) :
    d1 ∈ (sync_folders_with_progress src dest).1.dirs ∧
    d2 ∈ (sync_folders_with_progress src dest).2.dirs ∧
    (lookupFile (sync_folders_with_progress src dest).1.files q1).isSome = true ∧
    (lookupFile (sync_folders_with_progress src dest).2.files q2).isSome = true := by
  refine ⟨?_, ?_, ?_, ?_⟩
  · exact mem_foldl_mkdirStep_of_mem _ h1
  · exact mem_foldl_mkdirStep_of_mem _ h2
  · exact isSome_foldl_copyStep _ _ _ (by rw [h3]; rfl)
  · exact isSome_foldl_copyStep _ _ _ (by rw [h4]; rfl)

theorem c10_nothing_removed_witness :
    (["d1"] : FsPath) ∈ (sync_folders_with_progress
        { dirs := [[], ["d1"]], files := [(["x"], ⟨1, 5⟩)] }
        { dirs := [[], ["d2"]], files := [(["y"], ⟨2, 3⟩)] }).1.dirs ∧
    (["d2"] : FsPath) ∈ (sync_folders_with_progress
        { dirs := [[], ["d1"]], files := [(["x"], ⟨1, 5⟩)] }
        { dirs := [[], ["d2"]], files := [(["y"], ⟨2, 3⟩)] }).2.dirs ∧
    (lookupFile (sync_folders_with_progress
        { dirs := [[], ["d1"]], files := [(["x"], ⟨1, 5⟩)] }
        { dirs := [[], ["d2"]], files := [(["y"], ⟨2, 3⟩)] }).1.files ["x"]).isSome = true ∧
    (lookupFile (sync_folders_with_progress
        { dirs := [[], ["d1"]], files := [(["x"], ⟨1, 5⟩)] }
        { dirs := [[], ["d2"]], files := [(["y"], ⟨2, 3⟩)] }).2.files ["y"]).isSome = true :=
  c10_nothing_removed _ _ ["d1"] ["d2"] ["x"] ["y"] ⟨1, 5⟩ ⟨2, 3⟩
    (by decide) (by decide) (by decide) (by decide)

/-- C4: any exception raised by the body of on_any_event is caught inside
the handler: the handler returns normally with the pre-event filesystem and
a log line built from the event's kind and source path, and the remaining
events of the stream are processed exactly as they would have been anyway. -/
theorem c4_event_isolation (w m : FsPath) (fs : FsTree) (e : Event) (err : HandlerError)
    (rest : List Event) (h : on_any_event_body w m fs e = Except.error err) :
    on_any_event w m fs e = (fs, some (errorMessage e err)) ∧
    processEvents w m fs (e :: rest)
      = ((processEvents w m fs rest).1,
         errorMessage e err :: (processEvents w m fs rest).2) := by
  have h1 : on_any_event w m fs e = (fs, some (errorMessage e err)) := by
    unfold on_any_event
    rw [h]
  refine ⟨h1, ?_⟩
  simp only [processEvents, h1]

theorem c4_event_isolation_witness :
    on_any_event ["w"] ["m"] { dirs := [], files := [] } (Event.modified ["w", "x"])
      = ({ dirs := [], files := [] },
         some (errorMessage (Event.modified ["w", "x"]) (HandlerError.ioError ["w", "x"]))) ∧
    processEvents ["w"] ["m"] { dirs := [], files := [] }
        [Event.modified ["w", "x"], Event.created ["w", "y"]]
      = ((processEvents ["w"] ["m"] { dirs := [], files := [] } [Event.created ["w", "y"]]).1,
         errorMessage (Event.modified ["w", "x"]) (HandlerError.ioError ["w", "x"])
           :: (processEvents ["w"] ["m"] { dirs := [], files := [] }
                [Event.created ["w", "y"]]).2) :=
  c4_event_isolation ["w"] ["m"] { dirs := [], files := [] } (Event.modified ["w", "x"])
    (HandlerError.ioError ["w", "x"]) [Event.created ["w", "y"]] rfl

/-- C3: a Moved event old → new in the normal move configuration (the
mapped source exists as a file, the mapped destination does not exist as a
file or directory, and its parent directory does exist) is propagated:
afterwards the mapped old path holds no file and the mapped new path holds
the original content, with no error reported; and on a filesystem where
the mapped source does not exist (the mapped destination not being an
existing directory), shutil.move fails with the precondition error, the
failure is reported non-fatally, and the mirror filesystem is returned
unchanged. -/
theorem c3_move_propagation (w m oldP newP : FsPath) (fs fs2 : FsTree) (f : File)
    (h1 : lookupFile fs.files (mapped w m oldP) = some f)
    (h2 : lookupFile fs.files (mapped w m newP) = none)
    (h3 : pfx (mapped w m newP) (mapped w m oldP) = false)
    (hnd : mapped w m newP ∉ fs.dirs)
    (hpar : (mapped w m newP).dropLast ∈ fs.dirs)
    (h4 : fsExists fs2 (mapped w m oldP) = false)
    (h5 : mapped w m newP ∉ fs2.dirs) :
    (on_any_event w m fs (Event.moved oldP newP)).2 = none ∧
    lookupFile (on_any_event w m fs (Event.moved oldP newP)).1.files (mapped w m oldP)
      = none ∧
    lookupFile (on_any_event w m fs (Event.moved oldP newP)).1.files (mapped w m newP)
      = some f ∧
    on_any_event w m fs2 (Event.moved oldP newP)
      = (fs2, some (errorMessage (Event.moved oldP newP)
          (HandlerError.preconditionError (mapped w m oldP)))) := by
  have hne : mapped w m oldP ≠ mapped w m newP := by
    intro hh
    rw [hh, pfx_refl] at h3
    exact Bool.noConfusion h3
  have hex : fsExists fs (mapped w m oldP) = true := by
    unfold fsExists
    split
    · rfl
    · rw [h1]
      rfl
  have hrename : osRename fs (mapped w m oldP) (mapped w m newP)
      = Except.ok (movePath (removeFile fs (mapped w m newP))
          (mapped w m oldP) (mapped w m newP)) := by
    unfold osRename
    rw [if_pos hex, if_pos hpar]
  have hres : on_any_event w m fs (Event.moved oldP newP)
      = (movePath (removeFile fs (mapped w m newP)) (mapped w m oldP) (mapped w m newP),
         none) := by
    simp only [on_any_event, on_any_event_body, shutil_move]
    rw [if_neg hnd, hrename]
  have hrename2 : osRename fs2 (mapped w m oldP) (mapped w m newP)
      = Except.error (HandlerError.preconditionError (mapped w m oldP)) := by
    unfold osRename
    rw [if_neg (by simp [h4])]
  have hres2 : on_any_event w m fs2 (Event.moved oldP newP)
      = (fs2, some (errorMessage (Event.moved oldP newP)
          (HandlerError.preconditionError (mapped w m oldP)))) := by
    simp only [on_any_event, on_any_event_body, shutil_move]
    rw [if_neg h5, hrename2]
  have h1f : lookupFile (removeFile fs (mapped w m newP)).files (mapped w m oldP)
      = some f := by
    have hcond : ∀ e ∈ fs.files, e.1 = mapped w m oldP →
        (!(decide (e.1 = mapped w m newP))) = true := by
      intro e _ hek
      rw [hek, decide_eq_false hne]
      rfl
    show lookupFile (fs.files.filter fun e => !(decide (e.1 = mapped w m newP)))
        (mapped w m oldP) = some f
    rw [lookupFile_filter hcond, h1]
  have h2f : lookupFile (removeFile fs (mapped w m newP)).files (mapped w m newP)
      = none := by
    have hcond : ∀ e ∈ fs.files, e.1 = mapped w m newP →
        (!(decide (e.1 = mapped w m newP))) = true := by
      intro e he hek
      exact absurd hek (lookupFile_eq_none_iff.mp h2 e he)
    show lookupFile (fs.files.filter fun e => !(decide (e.1 = mapped w m newP)))
        (mapped w m newP) = none
    rw [lookupFile_filter hcond, h2]
  refine ⟨by rw [hres], ?_, ?_, hres2⟩
  · rw [hres]
    exact lookupFile_movePath_old (removeFile fs (mapped w m newP)).files _ _ h3
  · rw [hres]
    exact lookupFile_movePath_new (removeFile fs (mapped w m newP)).files _ _ f h1f h2f

theorem c3_move_propagation_witness :
    (on_any_event ["w"] ["m"]
        { dirs := [[], ["m"], ["w"]], files := [(["w", "a"], ⟨7, 1⟩), (["m", "a"], ⟨7, 1⟩)] }
        (Event.moved ["w", "a"] ["w", "b"])).2 = none ∧
    lookupFile (on_any_event ["w"] ["m"]
        { dirs := [[], ["m"], ["w"]], files := [(["w", "a"], ⟨7, 1⟩), (["m", "a"], ⟨7, 1⟩)] }
        (Event.moved ["w", "a"] ["w", "b"])).1.files (mapped ["w"] ["m"] ["w", "a"])
      = none ∧
    lookupFile (on_any_event ["w"] ["m"]
        { dirs := [[], ["m"], ["w"]], files := [(["w", "a"], ⟨7, 1⟩), (["m", "a"], ⟨7, 1⟩)] }
        (Event.moved ["w", "a"] ["w", "b"])).1.files (mapped ["w"] ["m"] ["w", "b"])
      = some ⟨7, 1⟩ ∧
    on_any_event ["w"] ["m"] { dirs := [], files := [] } (Event.moved ["w", "a"] ["w", "b"])
      = ({ dirs := [], files := [] },
         some (errorMessage (Event.moved ["w", "a"] ["w", "b"])
          (HandlerError.preconditionError (mapped ["w"] ["m"] ["w", "a"])))) :=
  c3_move_propagation ["w"] ["m"] ["w", "a"] ["w", "b"]
    { dirs := [[], ["m"], ["w"]], files := [(["w", "a"], ⟨7, 1⟩), (["m", "a"], ⟨7, 1⟩)] }
    { dirs := [], files := [] } ⟨7, 1⟩ (by decide) (by decide) (by decide) (by decide)
    (by decide) (by decide) (by decide)

/-- C9: for every event delivered by the watch (all its paths strictly
under the watched root, in normalized form), with the two roots not nested
in one another and the mirror root's ancestor chain existing, the handler
modifies nothing outside the mirror root: any path q1 not below the mirror
root, and in particular any path q2 under the watched root, has the same
file entry and the same directory-existence before and after the event. -/
theorem c9_mirror_only (w m : FsPath) (fs : FsTree) (e : Event) (q1 q2 : FsPath)
    (hRootEx : ∀ r ∈ initsOf m, r ∈ fs.dirs)
    (_hEvt : ∀ p ∈ eventPaths e, pfx w p = true ∧ p ≠ w ∧ "." ∉ p ∧ ".." ∉ p)
    (hN1 : pfx m w = false) (hN2 : pfx w m = false)
    (hq1 : pfx m q1 = false) (hq2 : pfx w q2 = true) :
    (lookupFile (on_any_event w m fs e).1.files q1 = lookupFile fs.files q1 ∧
     (q1 ∈ (on_any_event w m fs e).1.dirs ↔ q1 ∈ fs.dirs)) ∧
    (lookupFile (on_any_event w m fs e).1.files q2 = lookupFile fs.files q2 ∧
     (q2 ∈ (on_any_event w m fs e).1.dirs ↔ q2 ∈ fs.dirs)) := by
  have hq2m : pfx m q2 = false := by
    cases hc : pfx m q2
    · rfl
    · rcases pfx_comparable hc hq2 with hh | hh
      · rw [hh] at hN1
        exact Bool.noConfusion hN1
      · rw [hh] at hN2
        exact Bool.noConfusion hN2
  exact ⟨on_any_event_frame w m fs e q1 hRootEx hq1,
         on_any_event_frame w m fs e q2 hRootEx hq2m⟩

theorem c9_mirror_only_witness :
    (lookupFile (on_any_event ["w"] ["m"]
        { dirs := [[], ["m"], ["w"]], files := [(["w", "x"], ⟨1, 1⟩)] }
        (Event.created ["w", "x"])).1.files ["w", "x"]
      = lookupFile [(["w", "x"], ⟨1, 1⟩)] ["w", "x"] ∧
     ((["w", "x"] : FsPath) ∈ (on_any_event ["w"] ["m"]
        { dirs := [[], ["m"], ["w"]], files := [(["w", "x"], ⟨1, 1⟩)] }
        (Event.created ["w", "x"])).1.dirs ↔ (["w", "x"] : FsPath) ∈ [[], ["m"], ["w"]])) ∧
    (lookupFile (on_any_event ["w"] ["m"]
        { dirs := [[], ["m"], ["w"]], files := [(["w", "x"], ⟨1, 1⟩)] }
        (Event.created ["w", "x"])).1.files ["w", "x"]
      = lookupFile [(["w", "x"], ⟨1, 1⟩)] ["w", "x"] ∧
     ((["w", "x"] : FsPath) ∈ (on_any_event ["w"] ["m"]
        { dirs := [[], ["m"], ["w"]], files := [(["w", "x"], ⟨1, 1⟩)] }
        (Event.created ["w", "x"])).1.dirs ↔ (["w", "x"] : FsPath) ∈ [[], ["m"], ["w"]])) :=
  c9_mirror_only ["w"] ["m"]
    { dirs := [[], ["m"], ["w"]], files := [(["w", "x"], ⟨1, 1⟩)] }
    (Event.created ["w", "x"]) ["w", "x"] ["w", "x"]
    (by decide) (by decide) (by decide) (by decide) (by decide) (by decide)

/-- C2: the scanner copies a source file to the destination exactly when
the destination file does not exist or the source's modification time is
strictly greater; consequently, after one sync_folders_with_progress call
on trees with distinct file paths, running the same call again performs
zero copies. -/
theorem c2_idempotence (A B : FsTree) (m : FileMap) (p : FsPath) (f : File)
    (hA : (A.files.map Prod.fst).Nodup) (hB : (B.files.map Prod.fst).Nodup) :
    (willCopy m p f = true ↔
      (lookupFile m p = none ∨ ∃ g, lookupFile m p = some g ∧ g.mtime < f.mtime)) ∧
    syncCopyCount (sync_folders_with_progress A B).1 (sync_folders_with_progress A B).2
      = 0 := by
  refine ⟨?_, second_sync_zero A B hA hB⟩
  unfold willCopy
  cases hl : lookupFile m p with
  | none => simp
  | some g =>
    by_cases hlt : g.mtime < f.mtime
    · simp [hlt]
    · simp [hlt]

theorem c2_idempotence_witness :
    (willCopy [] ["p"] ⟨0, 3⟩ = true ↔
      (lookupFile [] ["p"] = none ∨
        ∃ g, lookupFile [] ["p"] = some g ∧ g.mtime < (⟨0, 3⟩ : File).mtime)) ∧
    syncCopyCount
      (sync_folders_with_progress
        { dirs := [[]], files := [(["x"], ⟨1, 2⟩)] }
        { dirs := [[]], files := [(["y"], ⟨2, 9⟩)] }).1
      (sync_folders_with_progress
        { dirs := [[]], files := [(["x"], ⟨1, 2⟩)] }
        { dirs := [[]], files := [(["y"], ⟨2, 9⟩)] }).2 = 0 :=
  c2_idempotence { dirs := [[]], files := [(["x"], ⟨1, 2⟩)] }
    { dirs := [[]], files := [(["y"], ⟨2, 9⟩)] } [] ["p"] ⟨0, 3⟩ (by decide) (by decide)

/-- C1 counterexample: two trees holding the same relative path with equal
modification times but different contents.  The strict timestamp comparison
never copies in either direction, so after reconcileBoth the two trees
still disagree on the content at that path. -/
theorem c1_counterexample :
    lookupFile (reconcileBoth { dirs := [[]], files := [(["p"], ⟨0, 5⟩)] }
        { dirs := [[]], files := [(["p"], ⟨1, 5⟩)] }).1.files ["p"] = some ⟨0, 5⟩ ∧
    lookupFile (reconcileBoth { dirs := [[]], files := [(["p"], ⟨0, 5⟩)] }
        { dirs := [[]], files := [(["p"], ⟨1, 5⟩)] }).2.files ["p"] = some ⟨1, 5⟩ ∧
    lookupFile (reconcileBoth { dirs := [[]], files := [(["p"], ⟨0, 5⟩)] }
        { dirs := [[]], files := [(["p"], ⟨1, 5⟩)] }).1.files ["p"]
      ≠ lookupFile (reconcileBoth { dirs := [[]], files := [(["p"], ⟨0, 5⟩)] }
        { dirs := [[]], files := [(["p"], ⟨1, 5⟩)] }).2.files ["p"] := by
  decide

/-- C1 (amended): for trees with distinct file paths in which no relative
path carries equal modification times with different contents, after
reconcile(A,B) followed by reconcile(B,A) every relative path present in
either tree exists in both trees with one and the same file, that file is
one of the two originals, and its modification time is maximal among the
originals at that path. -/
theorem c1_convergence (A B : FsTree)
    (hA : (A.files.map Prod.fst).Nodup) (hB : (B.files.map Prod.fst).Nodup)
    (hTie : ∀ e1 ∈ A.files, ∀ e2 ∈ B.files,
      e1.1 = e2.1 → e1.2.mtime = e2.2.mtime → e1.2 = e2.2)
    (q : FsPath)
    (hq : (lookupFile A.files q).isSome = true ∨ (lookupFile B.files q).isSome = true) :
    ∃ h : File,
      lookupFile (reconcileBoth A B).1.files q = some h ∧
      lookupFile (reconcileBoth A B).2.files q = some h ∧
      (lookupFile A.files q = some h ∨ lookupFile B.files q = some h) ∧
      (∀ f : File, lookupFile A.files q = some f ∨ lookupFile B.files q = some f →
        f.mtime ≤ h.mtime) := by
  obtain ⟨hb1, ha1⟩ := sync_lookup A B q hA hB
  have hA1nd : ((sync_folders_with_progress A B).1.files.map Prod.fst).Nodup :=
    nodup_keys_foldl_copyStep _ hA
  have hB1nd : ((sync_folders_with_progress A B).2.files.map Prod.fst).Nodup :=
    nodup_keys_foldl_copyStep _ hB
  obtain ⟨ha2, hb2⟩ := sync_lookup (sync_folders_with_progress A B).2
      (sync_folders_with_progress A B).1 q hB1nd hA1nd
  have hfin1 : lookupFile (reconcileBoth A B).1.files q
      = mergeAt (lookupFile (sync_folders_with_progress A B).2.files q)
          (lookupFile (sync_folders_with_progress A B).1.files q) := ha2
  have hfin2 : lookupFile (reconcileBoth A B).2.files q
      = mergeAt (mergeAt (lookupFile (sync_folders_with_progress A B).2.files q)
            (lookupFile (sync_folders_with_progress A B).1.files q))
          (lookupFile (sync_folders_with_progress A B).2.files q) := hb2
  rw [hb1, ha1] at hfin1 hfin2
  rw [hfin1, hfin2]
  cases hav : lookupFile A.files q with
  | none =>
    cases hbv : lookupFile B.files q with
    | none =>
      rw [hav, hbv] at hq
      simp at hq
    | some g =>
      refine ⟨g, ?_, ?_, Or.inr rfl, ?_⟩
      · simp [mergeAt, mergeStep]
      · simp [mergeAt, mergeStep]
      · rintro f' (hf' | hf')
        · exact absurd hf' (by simp)
        · injection hf' with hh
          exact Nat.le_of_eq (by rw [hh])
  | some f =>
    cases hbv : lookupFile B.files q with
    | none =>
      refine ⟨f, ?_, ?_, Or.inl rfl, ?_⟩
      · simp [mergeAt, mergeStep]
      · simp [mergeAt, mergeStep]
      · rintro f' (hf' | hf')
        · injection hf' with hh
          exact Nat.le_of_eq (by rw [hh])
        · exact absurd hf' (by simp)
    | some g =>
      by_cases hgf : g.mtime < f.mtime
      · refine ⟨f, ?_, ?_, Or.inl rfl, ?_⟩
        · simp [mergeAt, mergeStep, hgf]
        · simp [mergeAt, mergeStep, hgf]
        · rintro f' (hf' | hf')
          · injection hf' with hh
            exact Nat.le_of_eq (by rw [hh])
          · injection hf' with hh
            rw [← hh]
            exact Nat.le_of_lt hgf
      · by_cases hfg : f.mtime < g.mtime
        · refine ⟨g, ?_, ?_, Or.inr rfl, ?_⟩
          · simp [mergeAt, mergeStep, hgf, hfg]
          · simp [mergeAt, mergeStep, hgf, hfg]
          · rintro f' (hf' | hf')
            · injection hf' with hh
              rw [← hh]
              exact Nat.le_of_lt hfg
            · injection hf' with hh
              exact Nat.le_of_eq (by rw [hh])
        · have hmt : f.mtime = g.mtime := by omega
          have hfg2 : f = g :=
            hTie (q, f) (lookupFile_mem hav) (q, g) (lookupFile_mem hbv) rfl hmt
          subst hfg2
          refine ⟨f, ?_, ?_, Or.inl rfl, ?_⟩
          · simp [mergeAt, mergeStep]
          · simp [mergeAt, mergeStep]
          · rintro f' (hf' | hf') <;>
              (injection hf' with hh; exact Nat.le_of_eq (by rw [hh]))

theorem c1_convergence_witness :
    ∃ h : File,
      lookupFile (reconcileBoth
          { dirs := [[]], files := [(["p"], ⟨3, 10⟩), (["s"], ⟨4, 1⟩)] }
          { dirs := [[]], files := [(["p"], ⟨9, 2⟩)] }).1.files ["p"] = some h ∧
      lookupFile (reconcileBoth
          { dirs := [[]], files := [(["p"], ⟨3, 10⟩), (["s"], ⟨4, 1⟩)] }
          { dirs := [[]], files := [(["p"], ⟨9, 2⟩)] }).2.files ["p"] = some h ∧
      (lookupFile [(["p"], (⟨3, 10⟩ : File)), (["s"], ⟨4, 1⟩)] ["p"] = some h ∨
       lookupFile [(["p"], (⟨9, 2⟩ : File))] ["p"] = some h) ∧
      (∀ f : File, lookupFile [(["p"], (⟨3, 10⟩ : File)), (["s"], ⟨4, 1⟩)] ["p"] = some f ∨
          lookupFile [(["p"], (⟨9, 2⟩ : File))] ["p"] = some f →
        f.mtime ≤ h.mtime) :=
  c1_convergence { dirs := [[]], files := [(["p"], ⟨3, 10⟩), (["s"], ⟨4, 1⟩)] }
    { dirs := [[]], files := [(["p"], ⟨9, 2⟩)] } (by decide) (by decide) (by decide)
    ["p"] (by decide)
